import Mathlib

/-!
Verification development for the stockopt repository.

The repository's driver (`stockopt.go`) feeds filtered statement entries to a
single-constraint allocation optimizer (`solver.Solve`) that chooses how many
units of each stock lot to sell, maximizing total sale value subject to a cap
on total realized capital gain.  The solver package's source is not in the
tree, so the allocator below is modelled from the specification's algorithm
description (continuous-relaxation greedy); the driver-side definitions
(`mainFilter`, `es2e`, the output sort and its aggregates) are taken from
`stockopt.go`.

Currency values (`currency.Value`, an integer count of minor units) are
modelled as `Int`; unit counts as `Nat`.
-/

/-- A lot as seen by the allocator: `solver.Entry`'s numeric fields
(`N`, `Value`, `Gain`).  The opaque `ID` is carried separately as the lot's
original position. -/
structure Entry where
  n : Nat
  value : Int
  gain : Int
deriving DecidableEq

/-- Pair each lot with its original position, starting at `k`. -/
def indexed : Nat → List Entry → List (Nat × Entry)
  | _, [] => []
  | k, e :: es => (k, e) :: indexed (k + 1) es

/-- Modelled from the spec: the ranking key "value-per-unit-of-gain"
(`valuePerUnit / gainPerUnit`), taken as an exact rational. -/
def ratio (p : Nat × Entry) : ℚ := Rat.divInt p.2.value p.2.gain

/-- Modelled from the spec: the greedy processing order on indexed gain lots —
descending value/gain ratio, ties broken deterministically by ascending
original position. -/
def RankLE (a b : Nat × Entry) : Prop :=
  ratio b < ratio a ∨ (ratio a = ratio b ∧ a.1 ≤ b.1)

instance : DecidableRel RankLE := fun a b => by
  unfold RankLE; infer_instance

instance : IsTrans (Nat × Entry) RankLE where
  trans a b c hab hbc := by
    rcases hab with h1 | ⟨h1, h1i⟩ <;> rcases hbc with h2 | ⟨h2, h2i⟩
    · exact Or.inl (h2.trans h1)
    · exact Or.inl (h2 ▸ h1)
    · exact Or.inl (by rw [h1]; exact h2)
    · exact Or.inr ⟨h1.trans h2, Nat.le_trans h1i h2i⟩

instance : IsTotal (Nat × Entry) RankLE where
  total a b := by
    rcases lt_trichotomy (ratio a) (ratio b) with h | h | h
    · exact Or.inr (Or.inl h)
    · rcases Nat.le_total a.1 b.1 with hi | hi
      · exact Or.inl (Or.inr ⟨h, hi⟩)
      · exact Or.inr (Or.inr ⟨h.symm, hi⟩)
    · exact Or.inl (Or.inl h)

/-- The greedy's internal ranking sort on indexed gain lots. -/
def sortRank (l : List (Nat × Entry)) : List (Nat × Entry) :=
  List.insertionSort RankLE l

/-- The indexed gain lots (`gainPerUnit > 0`) of an input, in input order. -/
def gainLots (lots : List Entry) : List (Nat × Entry) :=
  (indexed 0 lots).filter fun p => 0 < p.2.gain

/-- Total gain realized by fully selling every non-positive-gain lot. -/
def lossTotal : List Entry → Int
  | [] => 0
  | e :: es => (if e.gain ≤ 0 then (e.n : Int) * e.gain else 0) + lossTotal es

/-- Modelled from the spec: remaining gain allowance after the loss/neutral
lots are fully sold (`maxGain − Σ(gain from fully-sold loss/neutral lots)`). -/
def headroom (lots : List Entry) (maxGain : Int) : Int :=
  maxGain - lossTotal lots

/-- Modelled from the spec: the greedy walk over the ranked gain lots.  Each
lot is sold in full while its full gain still fits the remaining budget; the
first lot that would overflow is sold `floor(budget / gainPerUnit)` units
clamped to `[0, units]`, and every later lot receives zero units. -/
def walk : Int → List (Nat × Entry) → List ((Nat × Entry) × Nat)
  | _, [] => []
  | b, p :: rest =>
    if (p.2.n : Int) * p.2.gain ≤ b then
      (p, p.2.n) :: walk (b - (p.2.n : Int) * p.2.gain) rest
    else
      (p, min p.2.n (b / p.2.gain).toNat) :: rest.map fun r => (r, 0)

/-- Modelled from the spec: units sold from each gain lot.  If headroom is
non-positive no gain lot is sold; otherwise the ranked gain lots are walked
greedily. -/
def gainAlloc (lots : List Entry) (maxGain : Int) : List ((Nat × Entry) × Nat) :=
  if headroom lots maxGain ≤ 0 then
    (sortRank (gainLots lots)).map fun r => (r, 0)
  else
    walk (headroom lots maxGain) (sortRank (gainLots lots))

/-- Units sold from the lot at original position `i`, read off a gain-lot
allocation; positions absent from the allocation sell zero units. -/
def soldAt (w : List ((Nat × Entry) × Nat)) (i : Nat) : Nat :=
  match w.find? fun q => q.1.1 == i with
  | some q => q.2
  | none => 0

/-- Modelled from the spec: the allocator `Solve`.  Non-positive-gain lots are
sold in full unconditionally; gain lots receive the greedy allocation.  The
result lists the units sold from each input lot, in input order. -/
def Solve (lots : List Entry) (maxGain : Int) : List Nat :=
  (indexed 0 lots).map fun p =>
    if p.2.gain ≤ 0 then p.2.n else soldAt (gainAlloc lots maxGain) p.1

/-- Per-lot contribution of an allocation to the realized gain. -/
def gainOf (e : Entry) (s : Nat) : Int := (s : Int) * e.gain

/-- Per-lot contribution of an allocation to the sale value. -/
def valueOf (e : Entry) (s : Nat) : Int := (s : Int) * e.value

/-- Sum of per-lot contributions of an allocation aligned with the lots. -/
def allocSum (f : Entry → Nat → Int) : List Nat → List Entry → Int
  | s :: ss, e :: es => f e s + allocSum f ss es
  | _, _ => 0

/-- Total realized gain of an allocation (as the driver recomputes it). -/
def totalGain (alloc : List Nat) (lots : List Entry) : Int :=
  allocSum gainOf alloc lots

/-- Total sale value of an allocation (as the driver recomputes it). -/
def totalValue (alloc : List Nat) (lots : List Entry) : Int :=
  allocSum valueOf alloc lots

/-- Sum of full-sale contributions of the non-positive-gain lots. -/
def lossSum (f : Entry → Nat → Int) : List Entry → Int
  | [] => 0
  | e :: es => (if e.gain ≤ 0 then f e e.n else 0) + lossSum f es

/-- Sum of contributions over a gain-lot allocation. -/
def wSum (f : Entry → Nat → Int) : List ((Nat × Entry) × Nat) → Int
  | [] => 0
  | q :: qs => f q.1.2 q.2 + wSum f qs

/-- Sum of a function over an indexed lot list. -/
def pSum (h : Nat × Entry → Int) : List (Nat × Entry) → Int
  | [] => 0
  | p :: ps => h p + pSum h ps

/-- Sum of contributions restricted by a predicate on the lot, over an
allocation aligned with the lots. -/
def allocSumP (P : Entry → Bool) (f : Entry → Nat → Int) :
    List Nat → List Entry → Int
  | s :: ss, e :: es => (if P e then f e s else 0) + allocSumP P f ss es
  | _, _ => 0

/-- Non-positive-gain (loss/neutral) lot test. -/
def lossP (e : Entry) : Bool := decide (e.gain ≤ 0)

/-- Positive-gain lot test. -/
def gainP (e : Entry) : Bool := decide (0 < e.gain)

/-- An allocation is bounded when it assigns each lot at most its available
units (and is aligned with the lot list). -/
def boundedAlloc : List Nat → List Entry → Bool
  | [], [] => true
  | s :: ss, e :: es => decide (s ≤ e.n) && boundedAlloc ss es
  | _, _ => false

/-- A feasible allocation: within per-lot availability and within the gain
cap. -/
def Feasible (lots : List Entry) (maxGain : Int) (alloc : List Nat) : Prop :=
  boundedAlloc alloc lots = true ∧ totalGain alloc lots ≤ maxGain

instance (lots : List Entry) (maxGain : Int) (alloc : List Nat) :
    Decidable (Feasible lots maxGain alloc) := by
  unfold Feasible; infer_instance

/-- The solution as consumers may receive it: only lots with a positive sale,
paired with their sold unit count. -/
def solutionList (lots : List Entry) (maxGain : Int) : List (Entry × Nat) :=
  (lots.zip (Solve lots maxGain)).filter fun p => 0 < p.2

/-- Sum of per-lot contributions over a solution list. -/
def solnSum (f : Entry → Nat → Int) : List (Entry × Nat) → Int
  | [] => 0
  | p :: ps => f p.1 p.2 + solnSum f ps

/-- `statement.Entry`'s fields used by the driver: acquisition time is an
abstract instant (`Int`). -/
structure StatementEntry where
  index : Nat
  plan : String
  acquired : Int
  available : Nat
  price : Int
  gain : Int
  issuePrice : Int
deriving DecidableEq

/-- The entry filter `main` installs in `statement.Options` (stockopt.go):
positive availability, acquired before the age cutoff, matching plan (unless
the plan filter is empty), and non-negative gain unless `-loss` is set. -/
def mainFilter (planFilter : String) (allowLoss : Bool) (thenTime : Int)
    (e : StatementEntry) : Bool :=
  decide (0 < e.available) && decide (e.acquired < thenTime) &&
    (decide (planFilter = "") || decide (e.plan = planFilter)) &&
    (decide (0 ≤ e.gain) || allowLoss)

/-- Modelled from the spec: `statement.ParseXLS` (source not in the tree)
returns exactly the parsed entries satisfying `Options.Filter`, in statement
order. -/
def parseXLSFiltered (raw : List StatementEntry)
    (keep : StatementEntry → Bool) : List StatementEntry :=
  raw.filter keep

/-- The solver entry `es2e` builds from a statement entry (stockopt.go):
`N = Available`, `Value = Price`, `Gain = Gain`. -/
def solverEntryOf (e : StatementEntry) : Entry :=
  ⟨e.available, e.price, e.gain⟩

/-- `es2e` (stockopt.go): convert statement entries to solver entries, in
order. -/
def es2e (es : List StatementEntry) : List Entry :=
  es.map solverEntryOf

/-- Modelled from the spec: `statement.EntryLess` (source not in the tree),
the caller-defined domain ordering on statement entries — by lot index. -/
def EntryLess (a b : StatementEntry) : Bool :=
  decide (a.index < b.index)

/-- Insertion step of the driver's output sort. -/
def insertBy {α : Type} (le : α → α → Bool) (a : α) : List α → List α
  | [] => [a]
  | b :: l => if le a b then a :: b :: l else b :: insertBy le a l

/-- A comparison sort; stands in for `sort.Slice` in the driver. -/
def sortBy {α : Type} (le : α → α → Bool) : List α → List α
  | [] => []
  | a :: l => insertBy le a (sortBy le l)

/-- The driver's post-processing sort of the solution (stockopt.go `solve`):
order by `statement.EntryLess` on the entries the solution points at.  A
solution element pairs a statement entry with its sold unit count. -/
def driverSort (soln : List (StatementEntry × Nat)) :
    List (StatementEntry × Nat) :=
  sortBy (fun a b => EntryLess a.1 b.1) soln

/-- Sum of a function over solution elements (driver aggregate loops). -/
def aggSum (f : StatementEntry × Nat → Int) :
    List (StatementEntry × Nat) → Int
  | [] => 0
  | p :: ps => f p + aggSum f ps

/-- Driver aggregate: total sold units. -/
def soldShares (soln : List (StatementEntry × Nat)) : Int :=
  aggSum (fun p => (p.2 : Int)) soln

/-- Driver aggregate: total sale value (`Σ N * Value`, with `Value = Price`). -/
def soldValue (soln : List (StatementEntry × Nat)) : Int :=
  aggSum (fun p => (p.2 : Int) * p.1.price) soln

/-- Driver aggregate: total realized gain (`Σ N * Gain`). -/
def soldGains (soln : List (StatementEntry × Nat)) : Int :=
  aggSum (fun p => (p.2 : Int) * p.1.gain) soln

/-- Driver aggregate: total cost basis (`Σ N * IssuePrice`). -/
def costBasis (soln : List (StatementEntry × Nat)) : Int :=
  aggSum (fun p => (p.2 : Int) * p.1.issuePrice) soln

/-! ### Helper lemmas: indexing -/

theorem indexed_length (k : Nat) (lots : List Entry) :
    (indexed k lots).length = lots.length := by
  induction lots generalizing k with
  | nil => rfl
  | cons e es ih => simp [indexed, ih]

theorem indexed_get (k : Nat) (lots : List Entry) (i : Nat)
    (h : i < lots.length) (h' : i < (indexed k lots).length) :
    (indexed k lots).get ⟨i, h'⟩ = (k + i, lots.get ⟨i, h⟩) := by
  induction lots generalizing k i with
  | nil => exact absurd h (Nat.not_lt_zero i)
  | cons e es ih =>
    cases i with
    | zero => rfl
    | succ j =>
      have hj : j < es.length := Nat.lt_of_succ_lt_succ h
      have hj' : j < (indexed (k + 1) es).length := by
        rw [indexed_length]; exact hj
      have hstep : (indexed k (e :: es)).get ⟨j + 1, h'⟩
          = (indexed (k + 1) es).get ⟨j, hj'⟩ := rfl
      rw [hstep, ih (k + 1) j hj hj']
      have hk : k + 1 + j = k + (j + 1) := by omega
      rw [hk]
      rfl

theorem mem_indexed {k : Nat} {lots : List Entry} {p : Nat × Entry}
    (hp : p ∈ indexed k lots) :
    ∃ j, ∃ h : j < lots.length, p = (k + j, lots.get ⟨j, h⟩) := by
  induction lots generalizing k with
  | nil => simp [indexed] at hp
  | cons e es ih =>
    rcases List.mem_cons.mp hp with h | h
    · refine ⟨0, Nat.succ_pos _, ?_⟩
      rw [h]
      simp
    · rcases ih h with ⟨j, hj, hpj⟩
      refine ⟨j + 1, Nat.succ_lt_succ hj, ?_⟩
      rw [hpj]
      have hk : k + 1 + j = k + (j + 1) := by omega
      rw [hk]
      rfl

theorem mem_indexed_snd {k : Nat} {lots : List Entry} {p : Nat × Entry}
    (hp : p ∈ indexed k lots) : p.2 ∈ lots := by
  rcases mem_indexed hp with ⟨j, hj, rfl⟩
  exact List.get_mem lots j hj

theorem mem_indexed_fst_ge {k : Nat} {lots : List Entry} {p : Nat × Entry}
    (hp : p ∈ indexed k lots) : k ≤ p.1 := by
  rcases mem_indexed hp with ⟨j, hj, rfl⟩
  exact Nat.le_add_right k j

theorem mem_indexed_zero_get {lots : List Entry} {p : Nat × Entry}
    (hp : p ∈ indexed 0 lots) :
    ∃ h : p.1 < lots.length, p.2 = lots.get ⟨p.1, h⟩ := by
  rcases mem_indexed hp with ⟨j, hj, hpe⟩
  rw [Nat.zero_add] at hpe
  rw [hpe]
  exact ⟨hj, rfl⟩

theorem indexed_keys_nodup (k : Nat) (lots : List Entry) :
    ((indexed k lots).map Prod.fst).Nodup := by
  induction lots generalizing k with
  | nil => simp [indexed]
  | cons e es ih =>
    simp only [indexed, List.map_cons, List.nodup_cons]
    refine ⟨?_, ih (k + 1)⟩
    intro hmem
    rcases List.mem_map.mp hmem with ⟨p, hp, hpk⟩
    have hge := mem_indexed_fst_ge hp
    omega

/-! ### Helper lemmas: the greedy walk -/

theorem map_zero_keys (l : List (Nat × Entry)) :
    ((l.map fun r => (r, (0 : Nat))).map Prod.fst) = l := by
  induction l with
  | nil => rfl
  | cons a l ih => simp only [List.map_cons, ih]

theorem walk_keys (b : Int) (l : List (Nat × Entry)) :
    (walk b l).map Prod.fst = l := by
  induction l generalizing b with
  | nil => rfl
  | cons p rest ih =>
    by_cases h : (p.2.n : Int) * p.2.gain ≤ b
    · simp only [walk, if_pos h, List.map_cons, ih]
    · simp only [walk, if_neg h, List.map_cons, List.map_map]
      rw [show (Prod.fst ∘ fun r : Nat × Entry => (r, (0 : Nat))) = id from rfl]
      simp

theorem wSum_map_zero (f : Entry → Nat → Int) (hf : ∀ e, f e 0 = 0)
    (l : List (Nat × Entry)) : wSum f (l.map fun r => (r, 0)) = 0 := by
  induction l with
  | nil => rfl
  | cons p rest ih => simp [wSum, hf, ih]

theorem walk_mem_bound {b : Int} {l : List (Nat × Entry)}
    {q : (Nat × Entry) × Nat} (hq : q ∈ walk b l) : q.2 ≤ q.1.2.n := by
  induction l generalizing b with
  | nil => simp [walk] at hq
  | cons p rest ih =>
    by_cases h : (p.2.n : Int) * p.2.gain ≤ b
    · rw [walk, if_pos h] at hq
      rcases List.mem_cons.mp hq with rfl | hmem
      · exact Nat.le_refl _
      · exact ih hmem
    · rw [walk, if_neg h] at hq
      rcases List.mem_cons.mp hq with rfl | hmem
      · exact Nat.min_le_left _ _
      · rcases List.mem_map.mp hmem with ⟨r, _, rfl⟩
        exact Nat.zero_le _

theorem walk_mem_fst {b : Int} {l : List (Nat × Entry)}
    {q : (Nat × Entry) × Nat} (hq : q ∈ walk b l) : q.1 ∈ l := by
  have := List.mem_map_of_mem Prod.fst hq
  rwa [walk_keys] at this

theorem wSum_gain_walk_le {b : Int} {l : List (Nat × Entry)} (hb : 0 ≤ b)
    (hg : ∀ p ∈ l, 0 < p.2.gain) : wSum gainOf (walk b l) ≤ b := by
  induction l generalizing b with
  | nil => simpa [walk, wSum] using hb
  | cons p rest ih =>
    have hp : 0 < p.2.gain := hg p (List.mem_cons_self _ _)
    by_cases h : (p.2.n : Int) * p.2.gain ≤ b
    · have h0 : 0 ≤ b - (p.2.n : Int) * p.2.gain := by linarith
      have hrec := ih h0 fun q hq => hg q (List.mem_cons_of_mem _ hq)
      simp only [walk, if_pos h, wSum, gainOf]
      linarith
    · simp only [walk, if_neg h, wSum]
      rw [wSum_map_zero gainOf (fun e => by simp [gainOf]) rest]
      have hdn : 0 ≤ b / p.2.gain := Int.ediv_nonneg hb (le_of_lt hp)
      have h1 : ((min p.2.n (b / p.2.gain).toNat : Nat) : Int) ≤ b / p.2.gain := by
        calc ((min p.2.n (b / p.2.gain).toNat : Nat) : Int)
            ≤ (((b / p.2.gain).toNat : Nat) : Int) := by
              exact_mod_cast Nat.min_le_right _ _
          _ = b / p.2.gain := Int.toNat_of_nonneg hdn
      have h2 : ((min p.2.n (b / p.2.gain).toNat : Nat) : Int) * p.2.gain
          ≤ (b / p.2.gain) * p.2.gain :=
        mul_le_mul_of_nonneg_right h1 (le_of_lt hp)
      have h3 : (b / p.2.gain) * p.2.gain ≤ b := Int.ediv_mul_le b (ne_of_gt hp)
      simp only [gainOf]
      linarith

theorem wSum_value_walk_nonneg {b : Int} {l : List (Nat × Entry)}
    (hv : ∀ p ∈ l, 0 ≤ p.2.value) : 0 ≤ wSum valueOf (walk b l) := by
  induction l generalizing b with
  | nil => simp [walk, wSum]
  | cons p rest ih =>
    have hp : 0 ≤ p.2.value := hv p (List.mem_cons_self _ _)
    have hrest : ∀ q ∈ rest, 0 ≤ q.2.value := fun q hq => hv q (List.mem_cons_of_mem _ hq)
    by_cases h : (p.2.n : Int) * p.2.gain ≤ b
    · simp only [walk, if_pos h, wSum, valueOf]
      have := ih (b := b - (p.2.n : Int) * p.2.gain) hrest
      have hterm : 0 ≤ ((p.2.n : Nat) : Int) * p.2.value :=
        mul_nonneg (Int.natCast_nonneg _) hp
      linarith
    · simp only [walk, if_neg h, wSum]
      rw [wSum_map_zero valueOf (fun e => by simp [valueOf]) rest]
      simp only [valueOf]
      have : 0 ≤ ((min p.2.n (b / p.2.gain).toNat : Nat) : Int) * p.2.value :=
        mul_nonneg (Int.natCast_nonneg _) hp
      linarith

theorem wSum_value_walk_mono {b1 b2 : Int} {l : List (Nat × Entry)}
    (hg : ∀ p ∈ l, 0 < p.2.gain) (hv : ∀ p ∈ l, 0 ≤ p.2.value)
    (hb : b1 ≤ b2) : wSum valueOf (walk b1 l) ≤ wSum valueOf (walk b2 l) := by
  induction l generalizing b1 b2 with
  | nil => simp [walk, wSum]
  | cons p rest ih =>
    have hp : 0 < p.2.gain := hg p (List.mem_cons_self _ _)
    have hpv : 0 ≤ p.2.value := hv p (List.mem_cons_self _ _)
    have hgr : ∀ q ∈ rest, 0 < q.2.gain := fun q hq => hg q (List.mem_cons_of_mem _ hq)
    have hvr : ∀ q ∈ rest, 0 ≤ q.2.value := fun q hq => hv q (List.mem_cons_of_mem _ hq)
    by_cases h1 : (p.2.n : Int) * p.2.gain ≤ b1
    · have h2 : (p.2.n : Int) * p.2.gain ≤ b2 := le_trans h1 hb
      simp only [walk, if_pos h1, if_pos h2, wSum]
      have := ih hgr hvr (by linarith : b1 - (p.2.n : Int) * p.2.gain ≤ b2 - (p.2.n : Int) * p.2.gain)
      linarith
    · by_cases h2 : (p.2.n : Int) * p.2.gain ≤ b2
      · simp only [walk, if_neg h1, if_pos h2, wSum]
        rw [wSum_map_zero valueOf (fun e => by simp [valueOf]) rest]
        have hrec : 0 ≤ wSum valueOf (walk (b2 - (p.2.n : Int) * p.2.gain) rest) :=
          wSum_value_walk_nonneg hvr
        have hle : ((min p.2.n (b1 / p.2.gain).toNat : Nat) : Int) ≤ (p.2.n : Int) := by
          exact_mod_cast Nat.min_le_left _ _
        have := mul_le_mul_of_nonneg_right hle hpv
        simp only [valueOf]
        linarith
      · simp only [walk, if_neg h1, if_neg h2, wSum]
        rw [wSum_map_zero valueOf (fun e => by simp [valueOf]) rest]
        have hdn : b1 / p.2.gain ≤ b2 / p.2.gain := Int.ediv_le_ediv hp hb
        have hmin : min p.2.n (b1 / p.2.gain).toNat ≤ min p.2.n (b2 / p.2.gain).toNat :=
          min_le_min (Nat.le_refl _) (Int.toNat_le_toNat hdn)
        have hcast : ((min p.2.n (b1 / p.2.gain).toNat : Nat) : Int)
            ≤ ((min p.2.n (b2 / p.2.gain).toNat : Nat) : Int) := by exact_mod_cast hmin
        have := mul_le_mul_of_nonneg_right hcast hpv
        simp only [valueOf]
        linarith

/-! ### Helper lemmas: sums and the allocation decomposition -/

theorem pSum_eq_sum_map (h : Nat × Entry → Int) (l : List (Nat × Entry)) :
    pSum h l = (l.map h).sum := by
  induction l with
  | nil => rfl
  | cons p ps ih => simp [pSum, ih]

theorem pSum_congr_perm (h : Nat × Entry → Int) {l1 l2 : List (Nat × Entry)}
    (hp : l1.Perm l2) : pSum h l1 = pSum h l2 := by
  rw [pSum_eq_sum_map, pSum_eq_sum_map]
  exact (hp.map h).sum_eq

theorem soldAt_map_zero (l : List (Nat × Entry)) (i : Nat) :
    soldAt (l.map fun r => (r, 0)) i = 0 := by
  unfold soldAt
  cases hfind : (l.map fun r => (r, (0 : Nat))).find? fun q => q.1.1 == i with
  | none => rfl
  | some q =>
    have hq := List.mem_of_find?_eq_some hfind
    rcases List.mem_map.mp hq with ⟨r, _, rfl⟩
    rfl

theorem soldAt_mem {w : List ((Nat × Entry) × Nat)} {q : (Nat × Entry) × Nat}
    (hnd : (w.map fun q => q.1.1).Nodup) (hq : q ∈ w) :
    soldAt w q.1.1 = q.2 := by
  induction w with
  | nil => simp at hq
  | cons a rest ih =>
    have hnd' := List.nodup_cons.mp hnd
    rcases List.mem_cons.mp hq with rfl | hmem
    · unfold soldAt
      rw [List.find?_cons_of_pos _ (by simp)]
    · have hne : a.1.1 ≠ q.1.1 := by
        intro hcontra
        apply hnd'.1
        show a.1.1 ∈ List.map (fun q => q.1.1) rest
        rw [hcontra]
        exact List.mem_map_of_mem (fun q => q.1.1) hmem
      unfold soldAt
      rw [List.find?_cons_of_neg _ (by simpa using hne)]
      exact ih hnd'.2 hmem

theorem pSum_soldAt_eq_wSum (f : Entry → Nat → Int)
    {w u : List ((Nat × Entry) × Nat)}
    (hu : ∀ q ∈ u, soldAt w q.1.1 = q.2) :
    pSum (fun p => f p.2 (soldAt w p.1)) (u.map Prod.fst) = wSum f u := by
  induction u with
  | nil => rfl
  | cons q rest ih =>
    simp only [List.map_cons, pSum, wSum]
    rw [hu q (List.mem_cons_self _ _), ih fun r hr => hu r (List.mem_cons_of_mem _ hr)]

theorem sortRank_perm (l : List (Nat × Entry)) : (sortRank l).Perm l :=
  List.perm_insertionSort _ _

theorem gainAlloc_keys (lots : List Entry) (g : Int) :
    (gainAlloc lots g).map Prod.fst = sortRank (gainLots lots) := by
  by_cases h : headroom lots g ≤ 0
  · rw [gainAlloc, if_pos h, map_zero_keys]
  · rw [gainAlloc, if_neg h, walk_keys]

theorem gainLots_keys_nodup (lots : List Entry) :
    ((gainLots lots).map Prod.fst).Nodup := by
  have hsub : (gainLots lots).Sublist (indexed 0 lots) := List.filter_sublist _
  exact (indexed_keys_nodup 0 lots).sublist (hsub.map Prod.fst)

theorem gainAlloc_keys_nodup (lots : List Entry) (g : Int) :
    ((gainAlloc lots g).map fun q => q.1.1).Nodup := by
  have h1 : ((gainAlloc lots g).map fun q => q.1.1)
      = ((gainAlloc lots g).map Prod.fst).map Prod.fst := by
    rw [List.map_map]
    rfl
  rw [h1, gainAlloc_keys]
  have hperm : ((sortRank (gainLots lots)).map Prod.fst).Perm
      ((gainLots lots).map Prod.fst) := (sortRank_perm _).map _
  exact hperm.nodup_iff.mpr (gainLots_keys_nodup lots)

theorem mem_gainAlloc_fst {lots : List Entry} {g : Int}
    {q : (Nat × Entry) × Nat} (hq : q ∈ gainAlloc lots g) :
    q.1 ∈ gainLots lots := by
  have h1 : q.1 ∈ (gainAlloc lots g).map Prod.fst := List.mem_map_of_mem _ hq
  rw [gainAlloc_keys] at h1
  exact ((sortRank_perm _).mem_iff).mp h1

theorem mem_sortRank_gainLots {lots : List Entry} {p : Nat × Entry}
    (hp : p ∈ sortRank (gainLots lots)) :
    0 < p.2.gain ∧ p.2 ∈ lots := by
  have hmem : p ∈ gainLots lots := ((sortRank_perm _).mem_iff).mp hp
  have := List.mem_filter.mp hmem
  refine ⟨by simpa using this.2, mem_indexed_snd this.1⟩

theorem allocSum_indexed_map (f : Entry → Nat → Int)
    (w : List ((Nat × Entry) × Nat)) (lots : List Entry) (k : Nat) :
    allocSum f
        ((indexed k lots).map fun p =>
          if p.2.gain ≤ 0 then p.2.n else soldAt w p.1) lots
      = lossSum f lots
        + pSum (fun p => f p.2 (soldAt w p.1))
            ((indexed k lots).filter fun p => 0 < p.2.gain) := by
  induction lots generalizing k with
  | nil => simp [indexed, allocSum, lossSum, pSum]
  | cons e es ih =>
    by_cases h : e.gain ≤ 0
    · have hd : (decide (0 < ((k, e) : Nat × Entry).2.gain)) = false := by
        simp only [decide_eq_false_iff_not]
        omega
      simp only [indexed, List.map_cons, List.filter_cons, hd, if_pos h,
        Bool.false_eq_true, if_false, allocSum, lossSum, ih (k + 1)]
      ring
    · have hd : (decide (0 < ((k, e) : Nat × Entry).2.gain)) = true := by
        simp only [decide_eq_true_eq]
        omega
      simp only [indexed, List.map_cons, List.filter_cons, hd, if_neg h,
        if_true, allocSum, lossSum, pSum, ih (k + 1)]
      ring

theorem allocSum_solve (f : Entry → Nat → Int) (lots : List Entry) (g : Int) :
    allocSum f (Solve lots g) lots
      = lossSum f lots + wSum f (gainAlloc lots g) := by
  rw [Solve, allocSum_indexed_map]
  congr 1
  have hperm : ((indexed 0 lots).filter fun p => 0 < p.2.gain).Perm
      ((gainAlloc lots g).map Prod.fst) := by
    rw [gainAlloc_keys]
    exact (sortRank_perm (gainLots lots)).symm
  rw [pSum_congr_perm _ hperm]
  exact pSum_soldAt_eq_wSum f fun q hq => soldAt_mem (gainAlloc_keys_nodup lots g) hq

theorem lossSum_gainOf (lots : List Entry) :
    lossSum gainOf lots = lossTotal lots := by
  induction lots with
  | nil => rfl
  | cons e es ih => simp [lossSum, lossTotal, gainOf, ih]

theorem totalGain_solve (lots : List Entry) (g : Int) :
    totalGain (Solve lots g) lots
      = lossTotal lots + wSum gainOf (gainAlloc lots g) := by
  rw [totalGain, allocSum_solve, lossSum_gainOf]

theorem totalValue_solve (lots : List Entry) (g : Int) :
    totalValue (Solve lots g) lots
      = lossSum valueOf lots + wSum valueOf (gainAlloc lots g) := by
  rw [totalValue, allocSum_solve]

/-! ### Helper lemmas: sign-split of an arbitrary feasible allocation -/

theorem allocSum_split (f : Entry → Nat → Int) (alloc : List Nat)
    (lots : List Entry) :
    allocSum f alloc lots
      = allocSumP lossP f alloc lots + allocSumP gainP f alloc lots := by
  induction alloc generalizing lots with
  | nil => cases lots <;> simp [allocSum, allocSumP]
  | cons s ss ih =>
    cases lots with
    | nil => simp [allocSum, allocSumP]
    | cons e es =>
      simp only [allocSum, allocSumP, ih es]
      by_cases h : e.gain ≤ 0
      · have h1 : lossP e = true := by simp [lossP, h]
        have h2 : gainP e = false := by simp [gainP]; omega
        rw [h1, h2]
        simp only [if_true, Bool.false_eq_true, if_false]
        ring
      · have h1 : lossP e = false := by simp [lossP, h]
        have h2 : gainP e = true := by simp [gainP]; omega
        rw [h1, h2]
        simp only [if_true, Bool.false_eq_true, if_false]
        ring

theorem allocSumP_gain_nonneg (alloc : List Nat) (lots : List Entry) :
    0 ≤ allocSumP gainP gainOf alloc lots := by
  induction alloc generalizing lots with
  | nil => cases lots <;> simp [allocSumP]
  | cons s ss ih =>
    cases lots with
    | nil => simp [allocSumP]
    | cons e es =>
      simp only [allocSumP]
      have hrec := ih es
      by_cases h : gainP e = true
      · rw [h]
        simp only [if_true]
        have hg : 0 < e.gain := by simpa [gainP] using h
        have : 0 ≤ gainOf e s :=
          mul_nonneg (Int.natCast_nonneg _) (le_of_lt hg)
        linarith
      · rw [eq_false_of_ne_true h]
        simp only [Bool.false_eq_true, if_false]
        linarith

theorem allocSumP_loss_ge_lossTotal {alloc : List Nat} {lots : List Entry}
    (hb : boundedAlloc alloc lots = true) :
    lossTotal lots ≤ allocSumP lossP gainOf alloc lots := by
  induction alloc generalizing lots with
  | nil =>
    cases lots with
    | nil => simp [allocSumP, lossTotal]
    | cons e es => simp [boundedAlloc] at hb
  | cons s ss ih =>
    cases lots with
    | nil => simp [boundedAlloc] at hb
    | cons e es =>
      have hb' := (Bool.and_eq_true _ _).mp hb
      have hsn : s ≤ e.n := of_decide_eq_true hb'.1
      have hrec := ih hb'.2
      simp only [allocSumP, lossTotal]
      by_cases h : e.gain ≤ 0
      · have h1 : lossP e = true := by simp [lossP, h]
        rw [h1, if_pos rfl, if_pos h]
        have hcast : (s : Int) ≤ (e.n : Int) := by exact_mod_cast hsn
        have : (e.n : Int) * e.gain ≤ (s : Int) * e.gain :=
          mul_le_mul_of_nonpos_right hcast h
        simp only [gainOf]
        linarith
      · have h1 : lossP e = false := by simp [lossP, h]
        rw [h1, if_neg h]
        simp only [Bool.false_eq_true, if_false]
        linarith

theorem allocSumP_gain_value_nonpos {alloc : List Nat} {lots : List Entry}
    (hg : allocSumP gainP gainOf alloc lots ≤ 0) :
    allocSumP gainP valueOf alloc lots ≤ 0 := by
  induction alloc generalizing lots with
  | nil => cases lots <;> simp [allocSumP]
  | cons s ss ih =>
    cases lots with
    | nil => simp [allocSumP]
    | cons e es =>
      simp only [allocSumP] at hg ⊢
      by_cases h : gainP e = true
      · rw [h, if_pos rfl] at hg ⊢
        have hgn : 0 < e.gain := by simpa [gainP] using h
        have htail : 0 ≤ allocSumP gainP gainOf ss es := allocSumP_gain_nonneg ss es
        have hhead : 0 ≤ gainOf e s :=
          mul_nonneg (Int.natCast_nonneg _) (le_of_lt hgn)
        have hh0 : gainOf e s ≤ 0 := by linarith
        have hs0 : s = 0 := by
          by_contra hs
          have hspos : 0 < (s : Int) := by
            exact_mod_cast Nat.pos_of_ne_zero hs
          have : 0 < gainOf e s := mul_pos hspos hgn
          linarith
        subst hs0
        have : allocSumP gainP gainOf ss es ≤ 0 := by
          simpa [gainOf] using hg
        have := ih this
        simp only [valueOf, Nat.cast_zero, zero_mul]
        linarith
      · rw [eq_false_of_ne_true h] at hg ⊢
        simp only [Bool.false_eq_true, if_false] at hg ⊢
        have := ih (by linarith)
        linarith

theorem allocSumP_loss_value_le {alloc : List Nat} {lots : List Entry}
    (hb : boundedAlloc alloc lots = true)
    (hv : ∀ e ∈ lots, 0 ≤ e.value) :
    allocSumP lossP valueOf alloc lots ≤ lossSum valueOf lots := by
  induction alloc generalizing lots with
  | nil =>
    cases lots with
    | nil => simp [allocSumP, lossSum]
    | cons e es => simp [boundedAlloc] at hb
  | cons s ss ih =>
    cases lots with
    | nil => simp [boundedAlloc] at hb
    | cons e es =>
      have hb' := (Bool.and_eq_true _ _).mp hb
      have hsn : s ≤ e.n := of_decide_eq_true hb'.1
      have hev : 0 ≤ e.value := hv e (List.mem_cons_self _ _)
      have hrec := ih hb'.2 fun x hx => hv x (List.mem_cons_of_mem _ hx)
      simp only [allocSumP, lossSum]
      by_cases h : e.gain ≤ 0
      · have h1 : lossP e = true := by simp [lossP, h]
        rw [h1, if_pos rfl, if_pos h]
        have hcast : (s : Int) ≤ (e.n : Int) := by exact_mod_cast hsn
        have : (s : Int) * e.value ≤ (e.n : Int) * e.value :=
          mul_le_mul_of_nonneg_right hcast hev
        simp only [valueOf]
        linarith
      · have h1 : lossP e = false := by simp [lossP, h]
        rw [h1, if_neg h]
        simp only [Bool.false_eq_true, if_false]
        linarith

theorem allocSum_value_le_full {alloc : List Nat} {lots : List Entry}
    (hb : boundedAlloc alloc lots = true)
    (hv : ∀ e ∈ lots, 0 ≤ e.value) :
    totalValue alloc lots ≤ totalValue (lots.map Entry.n) lots := by
  induction alloc generalizing lots with
  | nil =>
    cases lots with
    | nil => simp [totalValue, allocSum]
    | cons e es => simp [boundedAlloc] at hb
  | cons s ss ih =>
    cases lots with
    | nil => simp [boundedAlloc] at hb
    | cons e es =>
      have hb' := (Bool.and_eq_true _ _).mp hb
      have hsn : s ≤ e.n := of_decide_eq_true hb'.1
      have hev : 0 ≤ e.value := hv e (List.mem_cons_self _ _)
      have hrec := ih hb'.2 fun x hx => hv x (List.mem_cons_of_mem _ hx)
      simp only [totalValue, allocSum, List.map_cons] at hrec ⊢
      have hcast : (s : Int) ≤ (e.n : Int) := by exact_mod_cast hsn
      have : (s : Int) * e.value ≤ (e.n : Int) * e.value :=
        mul_le_mul_of_nonneg_right hcast hev
      simp only [valueOf]
      linarith

/-! ### Helper lemmas: shape of the greedy allocation -/

theorem walk_single_partial {b : Int} {l : List (Nat × Entry)}
    {q1 q2 : (Nat × Entry) × Nat}
    (h1 : q1 ∈ walk b l) (h2 : q2 ∈ walk b l)
    (hp1 : 0 < q1.2) (hn1 : q1.2 < q1.1.2.n)
    (hp2 : 0 < q2.2) (hn2 : q2.2 < q2.1.2.n) : q1 = q2 := by
  induction l generalizing b with
  | nil => simp [walk] at h1
  | cons p rest ih =>
    by_cases h : (p.2.n : Int) * p.2.gain ≤ b
    · rw [walk, if_pos h] at h1 h2
      rcases List.mem_cons.mp h1 with rfl | hm1
      · exact absurd hn1 (Nat.lt_irrefl _)
      · rcases List.mem_cons.mp h2 with rfl | hm2
        · exact absurd hn2 (Nat.lt_irrefl _)
        · exact ih hm1 hm2
    · rw [walk, if_neg h] at h1 h2
      rcases List.mem_cons.mp h1 with rfl | hm1
      · rcases List.mem_cons.mp h2 with rfl | hm2
        · rfl
        · rcases List.mem_map.mp hm2 with ⟨r, _, rfl⟩
          exact absurd hp2 (Nat.lt_irrefl 0)
      · rcases List.mem_map.mp hm1 with ⟨r, _, rfl⟩
        exact absurd hp1 (Nat.lt_irrefl 0)

theorem mem_gainAlloc_bound {lots : List Entry} {g : Int}
    {q : (Nat × Entry) × Nat} (hq : q ∈ gainAlloc lots g) :
    q.2 ≤ q.1.2.n := by
  by_cases h : headroom lots g ≤ 0
  · rw [gainAlloc, if_pos h] at hq
    rcases List.mem_map.mp hq with ⟨r, _, rfl⟩
    exact Nat.zero_le _
  · rw [gainAlloc, if_neg h] at hq
    exact walk_mem_bound hq

theorem soldAt_gainAlloc_le {lots : List Entry} {g : Int} {p : Nat × Entry}
    (hp : p ∈ indexed 0 lots) : soldAt (gainAlloc lots g) p.1 ≤ p.2.n := by
  unfold soldAt
  cases hfind : (gainAlloc lots g).find? fun q => q.1.1 == p.1 with
  | none => exact Nat.zero_le _
  | some q =>
    have hqmem := List.mem_of_find?_eq_some hfind
    have hqeq : q.1.1 = p.1 := by
      have := List.find?_some hfind
      simpa using this
    have hb := mem_gainAlloc_bound hqmem
    have hq1 : q.1 ∈ gainLots lots := mem_gainAlloc_fst hqmem
    have hq2 : q.1 ∈ indexed 0 lots := (List.mem_filter.mp hq1).1
    rcases mem_indexed_zero_get hq2 with ⟨hlt1, hget1⟩
    rcases mem_indexed_zero_get hp with ⟨hlt2, hget2⟩
    have hsame : q.1.2 = p.2 := by
      rw [hget1, hget2]
      congr 1
      exact Fin.ext hqeq
    rw [hsame] at hb
    exact hb

theorem solve_boundedAlloc (lots : List Entry) (g : Int) :
    boundedAlloc (Solve lots g) lots = true := by
  have main : ∀ (es : List Entry) (k : Nat)
      (sel : Nat × Entry → Nat),
      (∀ p ∈ indexed k es, sel p ≤ p.2.n) →
      boundedAlloc ((indexed k es).map sel) es = true := by
    intro es
    induction es with
    | nil => intro k sel _; rfl
    | cons e es ih =>
      intro k sel hsel
      simp only [indexed, List.map_cons, boundedAlloc, Bool.and_eq_true,
        decide_eq_true_eq]
      refine ⟨hsel (k, e) (List.mem_cons_self _ _), ?_⟩
      exact ih (k + 1) sel fun p hp => hsel p (List.mem_cons_of_mem _ hp)
  apply main lots 0
  intro p hp
  by_cases h : p.2.gain ≤ 0
  · rw [if_pos h]
  · rw [if_neg h]
    exact soldAt_gainAlloc_le hp

theorem solve_length (lots : List Entry) (g : Int) :
    (Solve lots g).length = lots.length := by
  rw [Solve, List.length_map, indexed_length]

theorem solve_get (lots : List Entry) (g : Int) (i : Nat)
    (h1 : i < lots.length) (h2 : i < (Solve lots g).length) :
    (Solve lots g).get ⟨i, h2⟩
      = if (lots.get ⟨i, h1⟩).gain ≤ 0 then (lots.get ⟨i, h1⟩).n
        else soldAt (gainAlloc lots g) i := by
  have h3 : i < (indexed 0 lots).length := by
    rw [indexed_length]; exact h1
  have hmap : (Solve lots g).get ⟨i, h2⟩
      = (fun p : Nat × Entry =>
          if p.2.gain ≤ 0 then p.2.n else soldAt (gainAlloc lots g) p.1)
          ((indexed 0 lots).get ⟨i, h3⟩) := by
    rw [List.get_eq_getElem, List.get_eq_getElem]
    exact List.getElem_map _
  rw [hmap, indexed_get 0 lots i h1 h3]
  simp only [Nat.zero_add]

/-! ### Helper lemmas: the thinned solution list -/

theorem solnSum_zip (f : Entry → Nat → Int) (lots : List Entry)
    (alloc : List Nat) :
    solnSum f (lots.zip alloc) = allocSum f alloc lots := by
  induction lots generalizing alloc with
  | nil => cases alloc <;> rfl
  | cons e es ih =>
    cases alloc with
    | nil => rfl
    | cons s ss =>
      show f e s + solnSum f (es.zip ss) = f e s + allocSum f ss es
      rw [ih ss]

theorem solnSum_filter_pos (f : Entry → Nat → Int) (hf : ∀ e, f e 0 = 0)
    (l : List (Entry × Nat)) :
    solnSum f (l.filter fun p => 0 < p.2) = solnSum f l := by
  induction l with
  | nil => rfl
  | cons p ps ih =>
    by_cases h : 0 < p.2
    · have hd : (decide (0 < p.2)) = true := decide_eq_true h
      simp only [List.filter_cons, hd, if_true, solnSum, ih]
    · have hd : (decide (0 < p.2)) = false := decide_eq_false h
      have hz : p.2 = 0 := by omega
      simp only [List.filter_cons, hd, Bool.false_eq_true, if_false, solnSum, ih]
      rw [hz, hf]
      ring

/-! ### Helper lemmas: the ranking order and determinism -/

theorem rankLE_refl (a : Nat × Entry) : RankLE a a :=
  Or.inr ⟨rfl, Nat.le_refl _⟩

theorem rankLE_total (a b : Nat × Entry) : RankLE a b ∨ RankLE b a :=
  IsTotal.total a b

theorem rankLE_antisymm_fst {a b : Nat × Entry}
    (h1 : RankLE a b) (h2 : RankLE b a) : a.1 = b.1 := by
  rcases h1 with h1 | ⟨h1, h1i⟩ <;> rcases h2 with h2 | ⟨h2, h2i⟩
  · exact absurd h2 (lt_asymm h1)
  · exact absurd h1 (by rw [h2]; exact lt_irrefl _)
  · exact absurd h2 (by rw [h1]; exact lt_irrefl _)
  · exact Nat.le_antisymm h1i h2i

theorem sorted_perm_nodup_unique :
    ∀ {l1 l2 : List (Nat × Entry)}, l1.Perm l2 →
      List.Sorted RankLE l1 → List.Sorted RankLE l2 →
      (l1.map Prod.fst).Nodup → l1 = l2 := by
  intro l1
  induction l1 with
  | nil =>
    intro l2 hp _ _ _
    exact (hp.nil_eq).symm ▸ rfl
  | cons a t1 ih =>
    intro l2 hp hs1 hs2 hnd
    cases l2 with
    | nil => exact absurd hp.symm.nil_eq (by simp)
    | cons b t2 =>
      have hs1' := List.sorted_cons.mp hs1
      have hs2' := List.sorted_cons.mp hs2
      have hnd' := List.nodup_cons.mp hnd
      have hbmem : b ∈ a :: t1 := hp.symm.subset (List.mem_cons_self _ _)
      have hab : b = a := by
        rcases List.mem_cons.mp hbmem with h | h
        · exact h
        · -- b in the tail of l1: the sorts force equal ranks, nodup keys forbid it
          have hamem : a ∈ b :: t2 := hp.subset (List.mem_cons_self _ _)
          have h1 : RankLE a b := hs1'.1 b h
          have h2 : RankLE b a := by
            rcases List.mem_cons.mp hamem with h' | h'
            · rw [h']; exact rankLE_refl b
            · exact hs2'.1 a h'
          have hfst := rankLE_antisymm_fst h1 h2
          exact absurd (hfst ▸ List.mem_map_of_mem Prod.fst h) hnd'.1
      subst hab
      have htail : t1.Perm t2 := hp.cons_inv
      rw [ih htail hs1'.2 hs2'.2 hnd'.2]

theorem sortRank_sorted (l : List (Nat × Entry)) :
    List.Sorted RankLE (sortRank l) :=
  List.sorted_insertionSort RankLE l

/-! ### Helper lemmas: the driver's output sort -/

theorem insertBy_perm {α : Type} (le : α → α → Bool) (a : α) (l : List α) :
    (insertBy le a l).Perm (a :: l) := by
  induction l with
  | nil => exact List.Perm.refl _
  | cons b t ih =>
    by_cases h : le a b
    · simp only [insertBy, if_pos h]
      exact List.Perm.refl _
    · simp only [insertBy, if_neg h]
      exact (ih.cons b).trans (List.Perm.swap a b t)

theorem sortBy_perm {α : Type} (le : α → α → Bool) (l : List α) :
    (sortBy le l).Perm l := by
  induction l with
  | nil => exact List.Perm.refl _
  | cons a t ih =>
    exact (insertBy_perm le a (sortBy le t)).trans (ih.cons a)

theorem aggSum_insertBy (f : StatementEntry × Nat → Int)
    (le : StatementEntry × Nat → StatementEntry × Nat → Bool)
    (a : StatementEntry × Nat) (l : List (StatementEntry × Nat)) :
    aggSum f (insertBy le a l) = f a + aggSum f l := by
  induction l with
  | nil => rfl
  | cons b t ih =>
    by_cases h : le a b
    · simp only [insertBy, if_pos h, aggSum]
    · simp only [insertBy, if_neg h, aggSum, ih]
      ring

theorem aggSum_sortBy (f : StatementEntry × Nat → Int)
    (le : StatementEntry × Nat → StatementEntry × Nat → Bool)
    (l : List (StatementEntry × Nat)) :
    aggSum f (sortBy le l) = aggSum f l := by
  induction l with
  | nil => rfl
  | cons a t ih => simp only [sortBy, aggSum_insertBy, ih, aggSum]

theorem gainAlloc_nonpos {lots : List Entry} {g : Int}
    (h : headroom lots g ≤ 0) :
    gainAlloc lots g = (sortRank (gainLots lots)).map fun r => (r, 0) := by
  rw [gainAlloc, if_pos h]

theorem gainAlloc_pos {lots : List Entry} {g : Int}
    (h : ¬ headroom lots g ≤ 0) :
    gainAlloc lots g = walk (headroom lots g) (sortRank (gainLots lots)) := by
  rw [gainAlloc, if_neg h]

/-! ### Claim C1: optimality -/

/-- Claim C1, counterexample: with lots `(n=1, v=100, g=9)` and
`(n=2, v=55, g=5)` and cap `10`, the greedy takes the higher-ratio lot and
reaches value `100`, but selling both units of the second lot is feasible and
worth `110`, so `Solve` is not optimal for the integer problem as claimed. -/
theorem solve_not_optimal :
    Feasible [⟨1, 100, 9⟩, ⟨2, 55, 5⟩] 10 [0, 2] ∧
      totalValue (Solve [⟨1, 100, 9⟩, ⟨2, 55, 5⟩] 10) [⟨1, 100, 9⟩, ⟨2, 55, 5⟩]
        < totalValue [0, 2] [⟨1, 100, 9⟩, ⟨2, 55, 5⟩] := by
  decide

/-- Claim C1 (amended): the allocation returned by `Solve` is optimal among
feasible allocations whenever no gain lot had to be rationed — that is, when
the headroom is non-positive (so no gain-lot sale is feasible at all beyond
the fully-sold loss lots), or when the greedy sold every lot in full. -/
theorem solve_optimal_when_unconstrained (lots : List Entry) (g : Int)
    (alloc : List Nat) (hval : ∀ e ∈ lots, 0 ≤ e.value)
    (hcase : headroom lots g ≤ 0 ∨ Solve lots g = lots.map Entry.n)
    (hfeas : Feasible lots g alloc) :
    totalValue alloc lots ≤ totalValue (Solve lots g) lots := by
  rcases hfeas with ⟨hb, hgain⟩
  rcases hcase with hhr | hfull
  · have hsplitg := allocSum_split gainOf alloc lots
    have hsplitv := allocSum_split valueOf alloc lots
    have hlossg := allocSumP_loss_ge_lossTotal hb
    unfold totalGain at hgain
    unfold headroom at hhr
    have hgainpart : allocSumP gainP gainOf alloc lots ≤ 0 := by linarith
    have hvle : allocSumP gainP valueOf alloc lots ≤ 0 :=
      allocSumP_gain_value_nonpos hgainpart
    have hlossv := allocSumP_loss_value_le hb hval
    have hsolve : totalValue (Solve lots g) lots = lossSum valueOf lots := by
      rw [totalValue_solve, gainAlloc_nonpos (by unfold headroom; linarith),
        wSum_map_zero valueOf (fun e => by simp [valueOf])]
      ring
    rw [hsolve]
    unfold totalValue
    linarith
  · rw [hfull]
    exact allocSum_value_le_full hb hval

/-- Claim C1 amended, witness: a concrete instance where the greedy sells
everything, applied to a concrete feasible allocation. -/
theorem solve_optimal_when_unconstrained_witness :
    totalValue [1] [⟨2, 3, 1⟩] ≤ totalValue (Solve [⟨2, 3, 1⟩] 10) [⟨2, 3, 1⟩] :=
  solve_optimal_when_unconstrained [⟨2, 3, 1⟩] 10 [1]
    (by decide) (Or.inr (by decide)) (by decide)

/-! ### Claim C2: feasibility -/

/-- Claim C2, counterexample: the spec's own edge case — a single gain lot
`(n=10, v=5, g=3)` with `maxGain = -5` — makes `Solve` sell nothing, so the
recomputed total gain is `0`, which exceeds the cap `-5`: the feasibility
inequality fails for sufficiently negative caps. -/
theorem solve_feasibility_fails :
    ¬ totalGain (Solve [⟨10, 5, 3⟩] (-5)) [⟨10, 5, 3⟩] ≤ -5 := by
  decide

/-- Claim C2 (amended): whenever the cap is at least the total gain of the
fully-sold non-positive-gain lots (in particular for every non-negative cap),
the allocation returned by `Solve` satisfies `Σ unitsSold·gainPerUnit ≤
maxGain` exactly in integer arithmetic, and the caller's recomputation of the
total gain equals the loss-lot gain plus the gain spent by the greedy walk —
the bound respected internally. -/
theorem solve_feasible (lots : List Entry) (g : Int)
    (h : lossTotal lots ≤ g) :
    totalGain (Solve lots g) lots ≤ g ∧
      totalGain (Solve lots g) lots
        = lossTotal lots + wSum gainOf (gainAlloc lots g) := by
  refine ⟨?_, totalGain_solve lots g⟩
  rw [totalGain_solve]
  by_cases hhr : headroom lots g ≤ 0
  · rw [gainAlloc_nonpos hhr, wSum_map_zero gainOf (fun e => by simp [gainOf])]
    linarith
  · rw [gainAlloc_pos hhr]
    have hb : (0 : Int) ≤ headroom lots g := le_of_lt (not_le.mp hhr)
    have hgains : ∀ p ∈ sortRank (gainLots lots), 0 < p.2.gain :=
      fun p hp => (mem_sortRank_gainLots hp).1
    have hle := wSum_gain_walk_le hb hgains
    have hh : headroom lots g = g - lossTotal lots := rfl
    linarith

/-- Claim C2 amended, witness at the spec's second example scenario. -/
theorem solve_feasible_witness :
    totalGain (Solve [⟨100, 10, 2⟩, ⟨50, 8, -1⟩] 50)
        [⟨100, 10, 2⟩, ⟨50, 8, -1⟩] ≤ 50 ∧
      totalGain (Solve [⟨100, 10, 2⟩, ⟨50, 8, -1⟩] 50)
          [⟨100, 10, 2⟩, ⟨50, 8, -1⟩]
        = lossTotal [⟨100, 10, 2⟩, ⟨50, 8, -1⟩]
          + wSum gainOf (gainAlloc [⟨100, 10, 2⟩, ⟨50, 8, -1⟩] 50) :=
  solve_feasible [⟨100, 10, 2⟩, ⟨50, 8, -1⟩] 50 (by decide)

/-! ### Claim C3: boundedness -/

/-- Claim C3: every per-lot count returned by `Solve` is an integer between
`0` and the lot's available units (the lower bound is inherent in the `Nat`
codomain), and thinning the solution to the lots with a positive sale loses
nothing: the value and gain recomputed from the thinned solution list equal
those of the full allocation, so omitted lots are equivalent to zero. -/
theorem solve_bounded (lots : List Entry) (g : Int) (i : Nat)
    (h1 : i < lots.length) (h2 : i < (Solve lots g).length) :
    (Solve lots g).get ⟨i, h2⟩ ≤ (lots.get ⟨i, h1⟩).n ∧
      solnSum valueOf (solutionList lots g) = totalValue (Solve lots g) lots ∧
      solnSum gainOf (solutionList lots g) = totalGain (Solve lots g) lots := by
  refine ⟨?_, ?_, ?_⟩
  · rw [solve_get lots g i h1 h2]
    by_cases h : (lots.get ⟨i, h1⟩).gain ≤ 0
    · rw [if_pos h]
    · rw [if_neg h]
      have h3 : i < (indexed 0 lots).length := by
        rw [indexed_length]; exact h1
      have hmem : (indexed 0 lots).get ⟨i, h3⟩ ∈ indexed 0 lots :=
        List.get_mem _ i h3
      rw [indexed_get 0 lots i h1 h3, Nat.zero_add] at hmem
      exact soldAt_gainAlloc_le hmem
  · rw [solutionList, solnSum_filter_pos valueOf (fun e => by simp [valueOf]),
      solnSum_zip]
    rfl
  · rw [solutionList, solnSum_filter_pos gainOf (fun e => by simp [gainOf]),
      solnSum_zip]
    rfl

/-- Claim C3, witness at a one-lot instance. -/
theorem solve_bounded_witness :
    (Solve [⟨2, 5, 1⟩] 10).get ⟨0, by decide⟩
        ≤ (([⟨2, 5, 1⟩] : List Entry).get ⟨0, by decide⟩).n ∧
      solnSum valueOf (solutionList [⟨2, 5, 1⟩] 10)
        = totalValue (Solve [⟨2, 5, 1⟩] 10) [⟨2, 5, 1⟩] ∧
      solnSum gainOf (solutionList [⟨2, 5, 1⟩] 10)
        = totalGain (Solve [⟨2, 5, 1⟩] 10) [⟨2, 5, 1⟩] :=
  solve_bounded [⟨2, 5, 1⟩] 10 0 (by decide) (by decide)

/-! ### Claim C4: full sale of non-positive-gain lots -/

/-- Claim C4: every lot with non-positive gain per unit is sold in full by
`Solve`, unconditionally in the cap. -/
theorem solve_sells_loss_lots_fully (lots : List Entry) (g : Int) (i : Nat)
    (h1 : i < lots.length) (h2 : i < (Solve lots g).length)
    (hg : (lots.get ⟨i, h1⟩).gain ≤ 0) :
    (Solve lots g).get ⟨i, h2⟩ = (lots.get ⟨i, h1⟩).n := by
  rw [solve_get lots g i h1 h2, if_pos hg]

/-- Claim C4, witness: a loss lot is fully sold even at cap `0`. -/
theorem solve_sells_loss_lots_fully_witness :
    (Solve [⟨3, 5, -1⟩] 0).get ⟨0, by decide⟩
      = (([⟨3, 5, -1⟩] : List Entry).get ⟨0, by decide⟩).n :=
  solve_sells_loss_lots_fully [⟨3, 5, -1⟩] 0 0 (by decide) (by decide)
    (by decide)

/-! ### Claim C5: the greedy algorithm's structure -/

/-- Claim C5: if the headroom left by the fully-sold loss lots is
non-positive, every gain lot receives zero units; otherwise the gain lots are
processed as a ranked list that is sorted by descending value/gain ratio
(ties by original position) and is a permutation of the gain lots, and the
walk sells at most one lot partially — any two entries of the gain-lot
allocation sold strictly between `0` and their full unit count coincide. -/
theorem solve_greedy_structure (lots : List Entry) (g : Int) (i : Nat)
    (h1 : i < lots.length) (h2 : i < (Solve lots g).length) :
    (headroom lots g ≤ 0 → 0 < (lots.get ⟨i, h1⟩).gain →
      (Solve lots g).get ⟨i, h2⟩ = 0) ∧
    (∀ q1 q2, q1 ∈ gainAlloc lots g → q2 ∈ gainAlloc lots g →
      0 < q1.2 → q1.2 < q1.1.2.n → 0 < q2.2 → q2.2 < q2.1.2.n → q1 = q2) ∧
    List.Sorted RankLE (sortRank (gainLots lots)) ∧
    (sortRank (gainLots lots)).Perm (gainLots lots) := by
  refine ⟨?_, ?_, sortRank_sorted _, sortRank_perm _⟩
  · intro hhr hgain
    rw [solve_get lots g i h1 h2,
      if_neg (by omega : ¬ (lots.get ⟨i, h1⟩).gain ≤ 0),
      gainAlloc_nonpos hhr]
    exact soldAt_map_zero _ i
  · intro q1 q2 hq1 hq2 ha hb hc hd
    by_cases hhr : headroom lots g ≤ 0
    · rw [gainAlloc_nonpos hhr] at hq1
      rcases List.mem_map.mp hq1 with ⟨r, _, rfl⟩
      exact absurd ha (lt_irrefl 0)
    · rw [gainAlloc_pos hhr] at hq1 hq2
      exact walk_single_partial hq1 hq2 ha hb hc hd

/-- Claim C5, witness: with negative headroom a gain lot receives zero. -/
theorem solve_greedy_structure_witness :
    (Solve [⟨1, 5, 3⟩] (-1)).get ⟨0, by decide⟩ = 0 :=
  (solve_greedy_structure [⟨1, 5, 3⟩] (-1) 0 (by decide) (by decide)).1
    (by decide) (by decide)

/-! ### Claim C6: monotonicity in the gain cap -/

/-- Claim C6: for valid lots (non-negative value per unit), raising the cap
never lowers the total value `Solve` attains, and lowering it never raises
that value. -/
theorem solve_monotone (lots : List Entry) (g1 g2 : Int)
    (hval : ∀ e ∈ lots, 0 ≤ e.value) (hg : g1 ≤ g2) :
    totalValue (Solve lots g1) lots ≤ totalValue (Solve lots g2) lots := by
  rw [totalValue_solve, totalValue_solve]
  have hgains : ∀ p ∈ sortRank (gainLots lots), 0 < p.2.gain :=
    fun p hp => (mem_sortRank_gainLots hp).1
  have hvals : ∀ p ∈ sortRank (gainLots lots), 0 ≤ p.2.value :=
    fun p hp => hval p.2 (mem_sortRank_gainLots hp).2
  have hkey : wSum valueOf (gainAlloc lots g1)
      ≤ wSum valueOf (gainAlloc lots g2) := by
    by_cases hh2 : headroom lots g2 ≤ 0
    · have hh1 : headroom lots g1 ≤ 0 := by
        unfold headroom at hh2 ⊢; linarith
      rw [gainAlloc_nonpos hh1, gainAlloc_nonpos hh2]
    · by_cases hh1 : headroom lots g1 ≤ 0
      · rw [gainAlloc_nonpos hh1, gainAlloc_pos hh2,
          wSum_map_zero valueOf (fun e => by simp [valueOf])]
        exact wSum_value_walk_nonneg hvals
      · rw [gainAlloc_pos hh1, gainAlloc_pos hh2]
        exact wSum_value_walk_mono hgains hvals
          (by unfold headroom; linarith)
  linarith

/-- Claim C6, witness: cap `0` versus cap `2` on a single gain lot. -/
theorem solve_monotone_witness :
    totalValue (Solve [⟨1, 5, 2⟩] 0) [⟨1, 5, 2⟩]
      ≤ totalValue (Solve [⟨1, 5, 2⟩] 2) [⟨1, 5, 2⟩] :=
  solve_monotone [⟨1, 5, 2⟩] 0 2 (by decide) (by decide)

/-! ### Claim C7: totality -/

/-- Claim C7: `Solve` is a total function on its whole domain — the empty lot
list yields the empty allocation, the result always has one count per input
lot, and the result is always a valid (bounded) allocation, so an infeasible
cap yields a valid allocation that may sell nothing rather than an error. -/
theorem solve_total_function (lots : List Entry) (g : Int) :
    Solve [] g = [] ∧ (Solve lots g).length = lots.length ∧
      boundedAlloc (Solve lots g) lots = true :=
  ⟨rfl, solve_length lots g, solve_boundedAlloc lots g⟩

/-! ### Claim C8: determinism -/

/-- Claim C8: the allocator is a pure function — identical inputs give
identical allocations — and its tie-break is stable: the ranking relation is
total, mutually-ranked lots have equal original positions, and any two sorted
permutations of a duplicate-free ranked list are equal, so the processing
order (and hence the result) is uniquely determined even among lots tied on
the value/gain ratio. -/
theorem solve_deterministic :
    (∀ a b : Nat × Entry, RankLE a b ∨ RankLE b a) ∧
    (∀ a b : Nat × Entry, RankLE a b → RankLE b a → a.1 = b.1) ∧
    (∀ l1 l2 : List (Nat × Entry), l1.Perm l2 →
      List.Sorted RankLE l1 → List.Sorted RankLE l2 →
      (l1.map Prod.fst).Nodup → l1 = l2) ∧
    (∀ (lots1 lots2 : List Entry) (g1 g2 : Int),
      lots1 = lots2 → g1 = g2 → Solve lots1 g1 = Solve lots2 g2) := by
  refine ⟨rankLE_total, fun a b => rankLE_antisymm_fst,
    fun l1 l2 hp hs1 hs2 hnd => sorted_perm_nodup_unique hp hs1 hs2 hnd, ?_⟩
  intro lots1 lots2 g1 g2 h1 h2
  rw [h1, h2]

/-- Claim C8, witness: two identical invocations coincide. -/
theorem solve_deterministic_witness :
    Solve [⟨1, 2, 3⟩] 5 = Solve [⟨1, 2, 3⟩] 5 :=
  solve_deterministic.2.2.2 [⟨1, 2, 3⟩] [⟨1, 2, 3⟩] 5 5 rfl rfl

/-! ### Claim C9: the driver's output sort is pure post-processing -/

/-- Claim C9: the driver's `solve` sorts the solver's solution by the
caller-defined `statement.EntryLess` ordering; the sort merely permutes the
solution, so the aggregates the driver then recomputes — sold shares, sold
value, sold gains and cost basis — are identical before and after the sort. -/
theorem driver_sort_is_postprocessing (soln : List (StatementEntry × Nat)) :
    (driverSort soln).Perm soln ∧
      soldShares (driverSort soln) = soldShares soln ∧
      soldValue (driverSort soln) = soldValue soln ∧
      soldGains (driverSort soln) = soldGains soln ∧
      costBasis (driverSort soln) = costBasis soln :=
  ⟨sortBy_perm _ _, aggSum_sortBy _ _ _, aggSum_sortBy _ _ _,
    aggSum_sortBy _ _ _, aggSum_sortBy _ _ _⟩

/-! ### Claim C10: the driver's input filter invariant -/

/-- Claim C10: every statement entry surviving the filter `main` installs has
positive availability, was acquired before the age cutoff, matches the plan
filter (unless it is empty), and has non-negative gain unless `-loss` is set
— in particular under the default flags (`allowLoss = false`) the solver
never receives a lot with negative gain — and `es2e` passes the filtered
entries through, in order, as solver entries with `N = Available`,
`Value = Price`, `Gain = Gain`. -/
theorem main_filter_invariant (raw : List StatementEntry) (pf : String)
    (al : Bool) (t : Int) (e : StatementEntry)
    (he : e ∈ parseXLSFiltered raw (mainFilter pf al t)) :
    (0 < e.available ∧ e.acquired < t ∧ (pf = "" ∨ e.plan = pf) ∧
      (0 ≤ e.gain ∨ al = true) ∧ (al = false → 0 ≤ e.gain)) ∧
      es2e (parseXLSFiltered raw (mainFilter pf al t))
        = (parseXLSFiltered raw (mainFilter pf al t)).map solverEntryOf := by
  have hmem := List.mem_filter.mp he
  have hf := hmem.2
  simp only [mainFilter, Bool.and_eq_true, Bool.or_eq_true,
    decide_eq_true_eq] at hf
  refine ⟨⟨hf.1.1.1, hf.1.1.2, hf.1.2, hf.2, ?_⟩, rfl⟩
  intro hal
  rcases hf.2 with h | h
  · exact h
  · rw [hal] at h
    exact absurd h (by simp)

/-- Claim C10, witness at a concrete statement entry passing the default
filter. -/
theorem main_filter_invariant_witness :
    (0 < (⟨3, "GSU Class C", 0, 4, 10, 2, 5⟩ : StatementEntry).available ∧
      (⟨3, "GSU Class C", 0, 4, 10, 2, 5⟩ : StatementEntry).acquired < 7 ∧
      ("GSU Class C" = "" ∨
        (⟨3, "GSU Class C", 0, 4, 10, 2, 5⟩ : StatementEntry).plan
          = "GSU Class C") ∧
      (0 ≤ (⟨3, "GSU Class C", 0, 4, 10, 2, 5⟩ : StatementEntry).gain ∨
        false = true) ∧
      (false = false →
        0 ≤ (⟨3, "GSU Class C", 0, 4, 10, 2, 5⟩ : StatementEntry).gain)) ∧
      es2e (parseXLSFiltered [⟨3, "GSU Class C", 0, 4, 10, 2, 5⟩]
          (mainFilter "GSU Class C" false 7))
        = (parseXLSFiltered [⟨3, "GSU Class C", 0, 4, 10, 2, 5⟩]
            (mainFilter "GSU Class C" false 7)).map solverEntryOf :=
  main_filter_invariant [⟨3, "GSU Class C", 0, 4, 10, 2, 5⟩] "GSU Class C"
    false 7 ⟨3, "GSU Class C", 0, 4, 10, 2, 5⟩ (by decide)
